import Mathlib

/-!
# Verification of the `tg-dump-word-cloud` core pipeline

Shallow embedding of the program's core (`src/parse.rs`, `src/tokenizer.rs`,
`src/main.rs`) and proofs about it.

Conventions of the embedding:

* The input file content is a `List Char`, mirroring
  `let chars: Vec<char> = content.chars().collect()` in `read_messages`.
* The `while` loop of `read_messages` is embedded as a fuel-indexed recursion
  (`scanFuel`); one unit of fuel corresponds to one iteration of the loop.
  `read_messages` runs it with fuel `chars.length + 1`, and we prove that this
  budget always suffices (the loop terminates).
* `serde_json` values are embedded as the inductive `Json`; `serde_json::from_str`
  is embedded as a standard JSON parser (`parseJson`) followed by the field
  decoding that `#[derive(Deserialize)]` performs on the `Message` struct
  (`messageFromJson`).  Numbers carrying a fraction or exponent are kept as a
  raw `numOther` token: `serde` rejects them for the integer fields, which is
  all the pipeline reads from numbers.
* The external libraries `regex` (the character class `[\p{L}\p{N}_-]`, whose
  semantics is the Unicode table), `str::to_lowercase` and `rust_stemmers` are
  parameters of the embedded functions (`wc`, `lower`, `ruStem`/`enStem`);
  concrete statements instantiate them with ASCII-exact versions, universal
  statements hold for every choice.
-/

/-! ## Brace characters

Written via `Char.ofNat` once and for all. -/

def obrace : Char := Char.ofNat 123

def cbrace : Char := Char.ofNat 125

/-! ## The record scanner of `read_messages` (`src/parse.rs` lines 60–115) -/

/-- Inner helper of the `for i in start_idx..chars.len()` search for the next
opening brace (`src/parse.rs` lines 68–74): scan `rest = chars.drop idx`,
reporting the absolute index of the first `{`. -/
def findOpenAux : List Char → Nat → Option Nat
  | [], _ => none
  | c :: cs, i => if c = obrace then some i else findOpenAux cs (i + 1)

/-- Index of the first `{` at or after `idx` (`src/parse.rs` lines 68–74). -/
def findOpen (chars : List Char) (idx : Nat) : Option Nat :=
  findOpenAux (chars.drop idx) idx

/-- Inner loop of the matching-brace search (`src/parse.rs` lines 78–93):
walk `rest`, maintaining `brace_count = depth`; on `}` with depth 1 report the
current absolute position, otherwise adjust the depth.  The Rust counter is an
`i32` that starts at 1 and is only decremented after a test against 1 (the
`brace_count == 0` break), so it never goes negative and `Nat` is faithful. -/
def closeFromAux : List Char → Nat → Nat → Option Nat
  | [], _, _ => none
  | c :: cs, depth, pos =>
    if c = obrace then closeFromAux cs (depth + 1) (pos + 1)
    else if c = cbrace then
      if depth = 1 then some pos else closeFromAux cs (depth - 1) (pos + 1)
    else closeFromAux cs depth (pos + 1)

/-- Position of the `}` matching the `{` at position `s`
(`src/parse.rs` lines 78–93), if any. -/
def closeFrom (chars : List Char) (s : Nat) : Option Nat :=
  closeFromAux (chars.drop (s + 1)) 1 (s + 1)

/-- The `while start_idx < chars.len()` loop of `read_messages`
(`src/parse.rs` lines 66–115), collecting the emitted spans `(start, end)`
(both inclusive).  One unit of fuel is one loop iteration; `none` means the
fuel ran out (we prove below that `chars.length + 1` units always suffice). -/
def scanFuel : Nat → List Char → Nat → Option (List (Nat × Nat))
  | 0, _, _ => none
  | fuel + 1, chars, idx =>
    match findOpen chars idx with
    | none => some []
    | some s =>
      match closeFrom chars s with
      | some e => (scanFuel fuel chars (e + 1)).map (fun l => (s, e) :: l)
      | none => scanFuel fuel chars (s + 1)

/-- The spans the loop emits when started at cursor `idx` (fuel
`chars.length + 1` always suffices, as proved below). -/
def scanFrom (chars : List Char) (idx : Nat) : List (Nat × Nat) :=
  (scanFuel (chars.length + 1) chars idx).getD []

/-- The spans emitted by the scan of `read_messages`, starting at cursor 0. -/
def readSpans (chars : List Char) : List (Nat × Nat) :=
  scanFrom chars 0

/-! ### Declarative characterisation of a matched span -/

/-- Depth contribution of one character. -/
def braceDelta (c : Char) : Int :=
  if c = obrace then 1 else if c = cbrace then -1 else 0

/-- Depth after folding the brace deltas of `l` over the start value `d`. -/
def depthFold (d : Int) (l : List Char) : Int :=
  l.foldl (fun a c => a + braceDelta c) d

/-- Brace depth after reading `chars[s+1..j]` (inclusive), starting from depth 1
at the opening brace position `s`.  `sliceDepth chars s s = 1`. -/
def sliceDepth (chars : List Char) (s j : Nat) : Int :=
  depthFold 1 ((chars.drop (s + 1)).take (j - s))

/-- `(s, e)` delimits a maximal balanced object span: it opens with `{`, the
depth stays positive strictly inside, and first returns to 0 exactly at `e`. -/
def SpanMatched (chars : List Char) (s e : Nat) : Prop :=
  s < e ∧ e < chars.length ∧ chars.getD s ' ' = obrace ∧
    sliceDepth chars s e = 0 ∧ ∀ j, s ≤ j → j < e → 1 ≤ sliceDepth chars s j

instance (chars : List Char) (s e : Nat) : Decidable (SpanMatched chars s e) := by
  unfold SpanMatched
  have : (∀ j, s ≤ j → j < e → 1 ≤ sliceDepth chars s j) ↔
      (∀ j, j < e → s ≤ j → 1 ≤ sliceDepth chars s j) := by
    constructor <;> intro h j h1 h2 <;> exact h j h2 h1
  rw [this]
  infer_instance

example : readSpans "\x7bA\x7bB\x7dC\x7d".toList = [(0, 6)] := by decide

/-! ## `serde_json` values and parsing

`serde_json::Value` is embedded as `Json`.  Numbers are kept as exact integers
when they are written in integer syntax; a number with a fraction or exponent
part is kept as its raw text (`numOther`) — the program only ever decodes
numbers into the integer fields `id`, `reply_to_message_id` and `count`, and
`serde` rejects floating-point numbers there. -/

inductive Json where
  | null
  | bool (b : Bool)
  | num (n : Int)
  | numOther (raw : String)
  | str (s : String)
  | arr (elems : List Json)
  | obj (fields : List (String × Json))

/-- Lookup in an object, first binding wins (objects produced by `parseJson`
have distinct keys in all inputs considered here). -/
def Json.getField (fields : List (String × Json)) (key : String) : Option Json :=
  (fields.find? (fun p => p.1 = key)).map (fun p => p.2)

/-- JSON insignificant whitespace. -/
def isJsonWs (c : Char) : Bool :=
  c = ' ' || c = '\t' || c = '\n' || c = '\r'

def skipWs (cs : List Char) : List Char := cs.dropWhile isJsonWs

def hexVal (c : Char) : Option Nat :=
  if '0' ≤ c ∧ c ≤ '9' then some (c.toNat - 48)
  else if 'a' ≤ c ∧ c ≤ 'f' then some (c.toNat - 87)
  else if 'A' ≤ c ∧ c ≤ 'F' then some (c.toNat - 55)
  else none

/-- JSON string body (after the opening quote): ordinary characters, the
short escapes, and `\uXXXX`.  Raw control characters are rejected, as
`serde_json` rejects them.  (Surrogate-pair recombination is not modelled;
no input considered here contains escaped surrogates.) -/
def parseStringAux : List Char → List Char → Option (String × List Char)
  | [], _ => none
  | '"' :: rest, acc => some (String.mk acc.reverse, rest)
  | '\\' :: 'u' :: h1 :: h2 :: h3 :: h4 :: rest, acc =>
    match hexVal h1, hexVal h2, hexVal h3, hexVal h4 with
    | some a, some b, some c, some d =>
      parseStringAux rest (Char.ofNat (((a * 16 + b) * 16 + c) * 16 + d) :: acc)
    | _, _, _, _ => none
  | '\\' :: e :: rest, acc =>
    if e = '"' ∨ e = '\\' ∨ e = '/' then parseStringAux rest (e :: acc)
    else if e = 'b' then parseStringAux rest (Char.ofNat 8 :: acc)
    else if e = 'f' then parseStringAux rest (Char.ofNat 12 :: acc)
    else if e = 'n' then parseStringAux rest ('\n' :: acc)
    else if e = 'r' then parseStringAux rest ('\r' :: acc)
    else if e = 't' then parseStringAux rest ('\t' :: acc)
    else none
  | c :: rest, acc =>
    if c.toNat < 32 then none else parseStringAux rest (c :: acc)

def digitsToNat (ds : List Char) : Nat :=
  ds.foldl (fun n c => n * 10 + (c.toNat - 48)) 0

/-- Exponent part of a number, if present.  Returns the consumed characters
and the remainder; `none` on a malformed exponent. -/
def parseExpPart (cs : List Char) : Option (List Char × List Char) :=
  match cs with
  | c :: rest =>
    if c = 'e' ∨ c = 'E' then
      let (sign, r1) : List Char × List Char :=
        match rest with
        | '+' :: r => (['+'], r)
        | '-' :: r => (['-'], r)
        | _ => ([], rest)
      let ds := r1.takeWhile Char.isDigit
      if ds.isEmpty then none
      else some (c :: (sign ++ ds), r1.dropWhile Char.isDigit)
    else some ([], cs)
  | [] => some ([], [])

/-- JSON number (RFC 8259 grammar): optional minus, integer part without
leading zeros, optional fraction, optional exponent. -/
def parseNumber (cs : List Char) : Option (Json × List Char) :=
  let (neg, cs1) : Bool × List Char :=
    match cs with
    | '-' :: r => (true, r)
    | _ => (false, cs)
  let intDigits := cs1.takeWhile Char.isDigit
  let cs2 := cs1.dropWhile Char.isDigit
  if intDigits.isEmpty then none
  else if 1 < intDigits.length ∧ intDigits.headD '0' = '0' then none
  else
    match cs2 with
    | '.' :: r =>
      let fracDigits := r.takeWhile Char.isDigit
      if fracDigits.isEmpty then none
      else
        match parseExpPart (r.dropWhile Char.isDigit) with
        | none => none
        | some (expChars, rest) =>
          some (Json.numOther (String.mk
            ((if neg then ['-'] else []) ++ intDigits ++ '.' :: fracDigits ++ expChars)), rest)
    | _ =>
      match parseExpPart cs2 with
      | none => none
      | some ([], rest) =>
        some (Json.num (if neg then -(digitsToNat intDigits : Int) else (digitsToNat intDigits : Int)), rest)
      | some (expChars, rest) =>
        some (Json.numOther (String.mk
          ((if neg then ['-'] else []) ++ intDigits ++ expChars)), rest)

mutual

/-- One JSON value, recursive descent with fuel (one unit per grammar step;
`jsonFuel` below always suffices for a complete parse). -/
def parseValue : Nat → List Char → Option (Json × List Char)
  | 0, _ => none
  | fuel + 1, cs =>
    match skipWs cs with
    | '"' :: rest => (parseStringAux rest []).map (fun p => (Json.str p.1, p.2))
    | 'n' :: 'u' :: 'l' :: 'l' :: rest => some (Json.null, rest)
    | 't' :: 'r' :: 'u' :: 'e' :: rest => some (Json.bool true, rest)
    | 'f' :: 'a' :: 'l' :: 's' :: 'e' :: rest => some (Json.bool false, rest)
    | c :: rest =>
      if c = obrace then parseObjBody fuel (skipWs rest)
      else if c = '[' then parseArrBody fuel (skipWs rest)
      else parseNumber (c :: rest)
    | [] => none

/-- Array body, after `[` and whitespace. -/
def parseArrBody : Nat → List Char → Option (Json × List Char)
  | 0, _ => none
  | fuel + 1, cs =>
    match cs with
    | ']' :: rest => some (Json.arr [], rest)
    | _ => (parseArrItems fuel cs).map (fun p => (Json.arr p.1, p.2))

/-- Comma-separated array items up to the closing `]`. -/
def parseArrItems : Nat → List Char → Option (List Json × List Char)
  | 0, _ => none
  | fuel + 1, cs =>
    match parseValue fuel cs with
    | none => none
    | some (v, rest) =>
      match skipWs rest with
      | ',' :: r2 => (parseArrItems fuel r2).map (fun p => (v :: p.1, p.2))
      | c :: r2 => if c = ']' then some ([v], r2) else none
      | [] => none

/-- Object body, after `{` and whitespace. -/
def parseObjBody : Nat → List Char → Option (Json × List Char)
  | 0, _ => none
  | fuel + 1, cs =>
    match cs with
    | c :: _ =>
      if c = cbrace then some (Json.obj [], cs.tail)
      else (parseObjItems fuel cs).map (fun p => (Json.obj p.1, p.2))
    | [] => none

/-- Comma-separated `"key": value` pairs up to the closing `}`. -/
def parseObjItems : Nat → List Char → Option (List (String × Json) × List Char)
  | 0, _ => none
  | fuel + 1, cs =>
    match skipWs cs with
    | '"' :: rest =>
      match parseStringAux rest [] with
      | none => none
      | some (key, r1) =>
        match skipWs r1 with
        | ':' :: r2 =>
          match parseValue fuel r2 with
          | none => none
          | some (v, r3) =>
            match skipWs r3 with
            | ',' :: r4 => (parseObjItems fuel r4).map (fun p => ((key, v) :: p.1, p.2))
            | c :: r4 => if c = cbrace then some ([(key, v)], r4) else none
            | [] => none
        | _ => none
    | _ => none

end

/-- Fuel that always suffices: each recursive call consumes at least one
character of the remaining input. -/
def jsonFuel (s : String) : Nat := 2 * s.length + 8

/-- `serde_json::from_str`: parse one value and require that only whitespace
follows. -/
def parseJson (s : String) : Option Json :=
  match parseValue (jsonFuel s) s.toList with
  | some (v, rest) => if (skipWs rest).isEmpty then some v else none
  | none => none

example : parseJson "\x7b\"a\": [1, \"x\", null], \"b\": -2\x7d" =
    some (Json.obj [("a", Json.arr [Json.num 1, Json.str "x", Json.null]), ("b", Json.num (-2))]) := by
  rfl

example : parseJson "\x7b\"t\":\"\x7d\"\x7d" =
    some (Json.obj [("t", Json.str "\x7d")]) := by rfl

example : parseJson "\x7b\"t\":\"" = none := by rfl

example : parseJson "1.5" = some (Json.numOther "1.5") := by rfl

/-! ## The `Message` data model (`src/parse.rs` lines 5–54) and its
`#[derive(Deserialize)]` decoding -/

structure SimpleMessage where
  username : String
  text : String
deriving DecidableEq

structure TextEntity where
  type : String
  text : String
deriving DecidableEq

structure ReactionUser where
  «from» : Option String
  from_id : String
  date : String
deriving DecidableEq

structure Reaction where
  type : String
  count : Int
  emoji : String
  recent : List ReactionUser
deriving DecidableEq

structure Message where
  id : Int
  type : String
  date : String
  date_unixtime : String
  edited : Option String
  edited_unixtime : Option String
  «from» : Option String
  from_id : Option String
  reply_to_message_id : Option Int
  text : Json
  text_entities : List TextEntity
  reactions : List Reaction

/-- Required `i64` field: an integer within the `i64` range. -/
def decodeI64 : Option Json → Option Int
  | some (Json.num n) => if -(2 ^ 63) ≤ n ∧ n < 2 ^ 63 then some n else none
  | _ => none

/-- Required `i32` field. -/
def decodeI32 : Option Json → Option Int
  | some (Json.num n) => if -(2 ^ 31) ≤ n ∧ n < 2 ^ 31 then some n else none
  | _ => none

/-- Required `String` field. -/
def decodeString : Option Json → Option String
  | some (Json.str s) => some s
  | _ => none

/-- `Option<String>` field: `serde` maps a missing field or `null` to `None`. -/
def decodeOptString : Option Json → Option (Option String)
  | none => some none
  | some Json.null => some none
  | some (Json.str s) => some (some s)
  | _ => none

/-- `Option<i64>` field. -/
def decodeOptI64 : Option Json → Option (Option Int)
  | none => some none
  | some Json.null => some none
  | some (Json.num n) => if -(2 ^ 63) ≤ n ∧ n < 2 ^ 63 then some (some n) else none
  | _ => none

/-- `#[serde(default)] Vec<T>` field: missing means empty, anything but an
array of valid elements is an error. -/
def decodeList {α : Type} (f : Json → Option α) : Option Json → Option (List α)
  | none => some []
  | some (Json.arr xs) => xs.mapM f
  | _ => none

def decodeTextEntity : Json → Option TextEntity
  | Json.obj fields => do
    let ty ← decodeString (Json.getField fields "type")
    let tx ← decodeString (Json.getField fields "text")
    pure ⟨ty, tx⟩
  | _ => none

def decodeReactionUser : Json → Option ReactionUser
  | Json.obj fields => do
    let fr ← decodeOptString (Json.getField fields "from")
    let fid ← decodeString (Json.getField fields "from_id")
    let date ← decodeString (Json.getField fields "date")
    pure ⟨fr, fid, date⟩
  | _ => none

def decodeReaction : Json → Option Reaction
  | Json.obj fields => do
    let ty ← decodeString (Json.getField fields "type")
    let count ← decodeI32 (Json.getField fields "count")
    let emoji ← decodeString (Json.getField fields "emoji")
    let recent ← decodeList decodeReactionUser (Json.getField fields "recent")
    pure ⟨ty, count, emoji, recent⟩
  | _ => none

/-- The field decoding generated by `#[derive(Deserialize)]` on `Message`
(`src/parse.rs` lines 33–54): `id`, `type`, `date`, `date_unixtime` required;
the `Option` fields default to `None`; `text` defaults to `Null`
(`serde_json::Value::default()`); the `Vec` fields default to empty.  Unknown
keys are ignored. -/
def messageFromJson : Json → Option Message
  | Json.obj f => do
    let id ← decodeI64 (Json.getField f "id")
    let ty ← decodeString (Json.getField f "type")
    let date ← decodeString (Json.getField f "date")
    let dateUnix ← decodeString (Json.getField f "date_unixtime")
    let edited ← decodeOptString (Json.getField f "edited")
    let editedUnix ← decodeOptString (Json.getField f "edited_unixtime")
    let fr ← decodeOptString (Json.getField f "from")
    let frId ← decodeOptString (Json.getField f "from_id")
    let reply ← decodeOptI64 (Json.getField f "reply_to_message_id")
    let ents ← decodeList decodeTextEntity (Json.getField f "text_entities")
    let reacts ← decodeList decodeReaction (Json.getField f "reactions")
    pure ⟨id, ty, date, dateUnix, edited, editedUnix, fr, frId, reply,
      (Json.getField f "text").getD Json.null, ents, reacts⟩
  | _ => none

/-- `serde_json::from_str::<Message>` (`src/parse.rs` line 99). -/
def decodeMessage (s : String) : Option Message :=
  (parseJson s).bind messageFromJson

/-! ## `read_messages` (`src/parse.rs` lines 56–122) -/

/-- The substring `chars[start..=end]` collected at `src/parse.rs` line 97. -/
def spanString (chars : List Char) (s e : Nat) : String :=
  String.mk ((chars.drop s).take (e + 1 - s))

/-- The successfully decoded messages, in scan order: spans whose text fails
to decode are skipped with a warning (`src/parse.rs` lines 99–105). -/
def decodedMessages (chars : List Char) : List Message :=
  (readSpans chars).filterMap (fun p => decodeMessage (spanString chars p.1 p.2))

/-- `read_messages`, given the file content (the `std::fs::read_to_string`
I/O and its failure are outside this model): scan, decode each span, and fail
with `No valid messages found in the file` when nothing decoded
(`src/parse.rs` lines 117–119). -/
def read_messages (chars : List Char) : Except String (List Message) :=
  let messages := decodedMessages chars
  if messages.isEmpty then Except.error "No valid messages found in the file"
  else Except.ok messages

/-! ## `extract_message_text` and `simplify_messages`
(`src/parse.rs` lines 124–180) -/

/-- Loop body of the array case of `extract_message_text`
(`src/parse.rs` lines 153–162): an object part contributes its `"text"`
string sub-field (checked first, as in the source), a plain string part
contributes itself, anything else contributes nothing. -/
def extractStep (result : String) (part : Json) : String :=
  match part with
  | Json.obj o =>
    match Json.getField o "text" with
    | some (Json.str t) => result ++ t
    | _ => result
  | Json.str t => result ++ t
  | _ => result

/-- `extract_message_text` (`src/parse.rs` lines 148–180): case analysis on
the shape of the `text` value; the array case folds `extractStep` over the
parts; any other shape falls back to concatenating the `text_entities`
texts. -/
def extract_message_text (message : Message) : String :=
  match message.text with
  | Json.str text => text
  | Json.arr parts => parts.foldl extractStep ""
  | _ =>
    if !message.text_entities.isEmpty then
      String.join (message.text_entities.map TextEntity.text)
    else ""

/-- `simplify_messages` (`src/parse.rs` lines 124–146): drop messages whose
extracted text is empty, resolve the username as `from`, else `from_id`,
else `"anonymous"`. -/
def simplify_messages (messages : List Message) : List SimpleMessage :=
  messages.filterMap fun msg =>
    let text := extract_message_text msg
    if text.isEmpty then none
    else
      let username :=
        match msg.«from» with
        | some name => name
        | none =>
          match msg.from_id with
          | some id => id
          | none => "anonymous"
      some ⟨username, text⟩

example : decodeMessage
    "\x7b\"id\":1,\"type\":\"message\",\"date\":\"d\",\"date_unixtime\":\"0\",\"text\":\"hello\"\x7d"
    = some ⟨1, "message", "d", "0", none, none, none, none, none, Json.str "hello", [], []⟩ := by
  rfl

example :
    (decodedMessages
      "\x7b\"id\":1,\"type\":\"message\",\"date\":\"d\",\"date_unixtime\":\"0\",\"text\":\"hello\"\x7d".toList).length
    = 1 := by rfl

/-! ## The tokenizer (`src/tokenizer.rs`)

The regex `[\p{L}\p{N}_-]+` of `tokenize_messages` matches maximal runs of
characters in a class defined by the Unicode tables of the `regex` crate; the
class membership test is the parameter `wc` below, and `str::to_lowercase`
(Unicode case mapping) is the parameter `lower`.  On ASCII text they are
exactly `asciiWordChar` and `String.toLower`. -/

structure Token where
  word : String
deriving DecidableEq

/-- The regex character class `[\p{L}\p{N}_-]`, restricted to ASCII. -/
def asciiWordChar (c : Char) : Bool :=
  c.isAlpha || c.isDigit || c = '_' || c = '-'

/-- `str::to_lowercase`, restricted to ASCII (on ASCII text the Unicode case
mapping lowercases exactly the letters `A`–`Z`). -/
def asciiLower (s : String) : String :=
  String.mk (s.toList.map (fun c =>
    if 'A' ≤ c ∧ c ≤ 'Z' then Char.ofNat (c.toNat + 32) else c))

/-- Maximal runs of `wc`-characters (`Regex::find_iter`): `cur` is the
reversed run being accumulated. -/
def runsAux (wc : Char → Bool) : List Char → List Char → List String
  | [], cur => if cur.isEmpty then [] else [String.mk cur.reverse]
  | c :: cs, cur =>
    if wc c then runsAux wc cs (c :: cur)
    else if cur.isEmpty then runsAux wc cs []
    else String.mk cur.reverse :: runsAux wc cs []

/-- All matches of `[\p{L}\p{N}_-]+` in `s`, left to right. -/
def wordRuns (wc : Char → Bool) (s : String) : List String :=
  runsAux wc s.toList []

/-- `tokenize_messages` (`src/tokenizer.rs` lines 9–34): for every message in
order, every regex match in order, lowercased; a word is skipped when
`word.len() < min_length` — Rust's `String::len` is the UTF-8 byte length,
i.e. `String.utf8ByteSize`. -/
def tokenize_messages (wc : Char → Bool) (lower : String → String)
    (messages : List SimpleMessage) (min_length : Nat) : List Token :=
  messages.flatMap fun message =>
    (wordRuns wc message.text).filterMap fun run =>
      let word := lower run
      if word.utf8ByteSize < min_length then none
      else some ⟨word⟩

/-- `filter_stop_words` (`src/tokenizer.rs` lines 37–45). -/
def filter_stop_words (tokens : List Token) (stop_words : List String) : List Token :=
  tokens.filter fun token => !stop_words.contains token.word

/-- `stem_tokens` (`src/tokenizer.rs` lines 48–65): the Snowball stemmers of
`rust_stemmers` are the parameters `ruStem`/`enStem`; the language selection
(`"ru"` → Russian, `"en"` → English, anything else → English, after
lowercasing the code) is the source's. -/
def stem_tokens (ruStem enStem : String → String) (tokens : List Token)
    (lang : String) : List Token :=
  let stemmer :=
    if asciiLower lang = "ru" then ruStem
    else if asciiLower lang = "en" then enStem
    else enStem
  tokens.map fun token => ⟨stemmer token.word⟩

/-- One `*word_counts.entry(word).or_insert(0) += 1` step
(`src/tokenizer.rs` line 71), on the association-list model of the map. -/
def incrWord : List (String × Nat) → String → List (String × Nat)
  | [], w => [(w, 1)]
  | (k, c) :: rest, w =>
    if k = w then (k, c + 1) :: rest else (k, c) :: incrWord rest w

/-- `count_words` (`src/tokenizer.rs` lines 67–75).  The `HashMap` is
modelled as an association list in first-insertion order; the map it denotes
is read off with `lookupCount`. -/
def count_words (tokens : List Token) : List (String × Nat) :=
  tokens.foldl (fun word_counts token => incrWord word_counts token.word) []

/-- The count the map associates to `w` (0 when absent). -/
def lookupCount (m : List (String × Nat)) (w : String) : Nat :=
  ((m.find? (fun p => p.1 = w)).map Prod.snd).getD 0

/-- `get_russian_stopwords` (`src/tokenizer.rs` lines 77–123), duplicates and
order as in the source. -/
def get_russian_stopwords : List String :=
  ["и", "в", "не", "на", "я", "быть", "он", "с", "что", "а",
    "по", "это", "она", "этот", "к", "но", "они", "мы", "как", "из",
    "у", "который", "то", "за", "свой", "весь", "год", "от", "так", "о",
    "для", "ты", "же", "все", "тот", "мочь", "вы", "человек", "такой", "его",
    "или", "один", "бы", "время", "если", "сам", "когда", "еще", "другой", "такая",
    "ее", "во", "да", "наш", "себя", "ни", "два", "более", "нет", "уже",
    "вот", "ну", "чтобы", "чтоб", "до", "вас", "нибудь", "ли", "её", "их",
    "там", "потом", "себе", "под", "ж", "кто", "этого", "какой", "можно", "даже",
    "чем", "со", "ним", "тут", "того", "надо", "тоже", "какая", "при", "том",
    "меня", "точно", "будут", "можешь", "свои", "всех", "понял", "наверное", "тебя", "какой-то",
    "хорошо", "недавно", "равно", "правда", "эту", "вам", "https", "можно", "нет", "даже",
    "надо", "тоже", "чем", "чтобы", "мне", "вообще", "сейчас", "без", "раз", "ещё",
    "очень", "больше", "вроде", "нужно", "много", "потом", "кто", "под", "лет", "потому",
    "них", "через", "работы", "тебе", "который", "этом", "время", "которые", "типа", "что-то",
    "лучше", "такое", "пока", "этого", "писать", "опыт", "более", "код", "том", "себе",
    "ли", "сам", "такой", "сделать", "почему", "хотя", "тогда", "работать", "делать", "того",
    "конечно", "знаю", "деньги", "какой", "зачем", "кстати", "ничего", "работает", "года", "него",
    "люди", "всего", "никто", "хз", "скорее", "прям", "например", "кажется", "проект", "один",
    "тем", "человек", "такие", "обычно", "поэтому", "ни", "компании", "значит", "могут", "либо",
    "опыта", "меньше", "работу", "теперь", "давно", "рф", "денег", "сколько", "думаю", "работа",
    "интересно", "людей", "чего", "просто", "будет", "ведь", "может", "где", "только", "когда",
    "некоторые", "был", "была", "были", "было", "быть", "есть", "иметь", "еще", "же",
    "здесь", "куда", "нас", "нам", "надо", "нужно", "также", "зачем", "почему", "мой",
    "твой", "свой", "ваш", "наш", "весь", "всю", "всё", "всем", "всеми", "вся",
    "сюда", "туда", "эта", "эти", "этим", "этими", "про", "как-то", "какие", "какими",
    "какого", "какому", "какой", "ими", "им", "ей", "него", "неё", "ней", "ему",
    "после", "перед", "между", "через", "над", "под", "около", "мимо", "против", "для",
    "вместо", "кроме", "сквозь", "вдоль", "поперек", "насчет", "вследствие", "благодаря", "ради", "хотя",
    "несмотря", "вопреки"]

/-! ## The orchestration in `main` (`src/main.rs`) -/

/-- The CLI configuration (`src/main.rs` lines 18–54), as already-parsed
values; the input/output paths take no part in the core pipeline. -/
structure Args where
  min_length : Nat
  max_words : Nat
  lang : String
  users : Option (List String)
  from_date : Option String
  to_date : Option String
  stop_words : Option (List String)

/-- The order used by `words.sort_by(|a, b| b.1.cmp(&a.1))` at
`src/main.rs` line 94: `a` comes before (or ties with) `b` when `a`'s count
is not smaller. -/
def countGE (a b : String × Nat) : Prop := b.2 ≤ a.2

instance : DecidableRel countGE := fun a b => Nat.decLe b.2 a.2

instance : IsTotal (String × Nat) countGE := ⟨fun a b => le_total b.2 a.2⟩

instance : IsTrans (String × Nat) countGE :=
  ⟨fun _ _ _ h1 h2 => le_trans h2 h1⟩

/-- The ranking step (`src/main.rs` lines 93–95):
`words.sort_by(|a, b| b.1.cmp(&a.1))` is a stable sort putting larger counts
first, then `truncate(max_words)`.  A stable sort is determined by its
comparator, so it is modelled by the stable `insertionSort` with `countGE`
(ties keep input order). -/
def rank (words : List (String × Nat)) (max_words : Nat) : List (String × Nat) :=
  (List.insertionSort countGE words).take max_words

/-- The part of `main` from reading messages to the ranked word list
(`src/main.rs` lines 60–95).  The steps after `read_messages` are
infallible; file output and rendering are outside the model.  The order in
which `word_counts.into_iter()` yields the map's entries is the model's
first-insertion order. -/
def main_model (wc : Char → Bool) (lower : String → String)
    (ruStem enStem : String → String) (args : Args) (input : List Char) :
    Except String (List (String × Nat)) :=
  match read_messages input with
  | Except.error e => Except.error e
  | Except.ok messages =>
    let simple_messages := simplify_messages messages
    let tokens := tokenize_messages wc lower simple_messages (max args.min_length 4)
    let stop_words := get_russian_stopwords
    let filtered_tokens := filter_stop_words tokens stop_words
    let stemmed_tokens := stem_tokens ruStem enStem filtered_tokens args.lang
    let word_counts := count_words stemmed_tokens
    Except.ok (rank word_counts args.max_words)

/-- The token sequence right after the stop-word filtering stage of `main`
(`src/main.rs` lines 63–76): the stop-word set passed to `filter_stop_words`
is `get_russian_stopwords()`; `args.stop_words` is never read. -/
def pipeline_filtered_tokens (wc : Char → Bool) (lower : String → String)
    (args : Args) (messages : List Message) : List Token :=
  filter_stop_words
    (tokenize_messages wc lower (simplify_messages messages) (max args.min_length 4))
    get_russian_stopwords

example :
    (tokenize_messages asciiWordChar asciiLower
      [⟨"u", "Hi there RUST-lang 123 a"⟩] 4).map Token.word
    = ["there", "rust-lang"] := by rfl

example : rank [("a", 5), ("b", 9), ("c", 1)] 2 = [("b", 9), ("a", 5)] := by rfl

/-! ## Auxiliary definitions used in the statements -/

/-- The text contribution of one element of a sequence-shaped `text` value,
as the spec words it (§4.3): a plain string is itself, a structured fragment
carrying a `text` sub-field contributes that sub-field's string value,
anything else contributes the empty string. -/
def specPartText : Json → String
  | Json.str s => s
  | Json.obj o =>
    match Json.getField o "text" with
    | some (Json.str t) => t
    | _ => ""
  | _ => ""

/-- A message with the given `text` value and entity list (the other fields
play no part in `extract_message_text`). -/
def mkTextMsg (t : Json) (ents : List TextEntity) : Message :=
  ⟨1, "message", "d", "0", none, none, none, none, none, t, ents, []⟩

/-- The CLI defaults (`src/main.rs` lines 24–53): `min_length` 3,
`max_words` 100, language `"en"`, everything else absent. -/
def cfgDefault : Args := ⟨3, 100, "en", none, none, none, none⟩

/-- A file containing one record that decodes but has no `text` field and no
`text_entities`: its extracted text is empty. -/
def textlessInput : String :=
  "\x7b\"id\":1,\"type\":\"message\",\"date\":\"d\",\"date_unixtime\":\"0\"\x7d"

/-- A single syntactically valid `Message` object whose `text` string value
is `"}"`: the scanner's depth counter treats that in-string `}` as a closing
brace. -/
def braceTextInput : String :=
  "\x7b\"id\":1,\"type\":\"message\",\"date\":\"d\",\"date_unixtime\":\"0\",\"text\":\"\x7d\"\x7d"

/-! ## Claims about the tokenizer stages -/

/-- C10: `filter_stop_words` is idempotent: for every token sequence and
every stopword set, filtering the already-filtered sequence with the same
stopword set yields the identical sequence. -/
theorem filter_stop_words_idempotent (tokens : List Token) (stop_words : List String) :
    filter_stop_words (filter_stop_words tokens stop_words) stop_words =
      filter_stop_words tokens stop_words := by
  simp [filter_stop_words, List.filter_filter]

/-- C3 counterexample: tokenizing `"Hi there RUST-lang 123 a"` with minimum
length 4 does not yield `"123"`: its UTF-8 length 3 is below the minimum, so
the code drops it, and the tokens are exactly `"there"` and `"rust-lang"`. -/
theorem tokenize_example_drops_123 :
    ((tokenize_messages asciiWordChar asciiLower
        [⟨"u", "Hi there RUST-lang 123 a"⟩] 4).map Token.word
      = ["there", "rust-lang"])
    ∧ "123" ∉ (tokenize_messages asciiWordChar asciiLower
        [⟨"u", "Hi there RUST-lang 123 a"⟩] 4).map Token.word :=
  ⟨by rfl, by decide⟩

/-- C3 (amended): tokenizing a message whose text is
`"Hi there RUST-lang 123 a"` with minimum length 4 yields exactly the tokens
`"there"` and `"rust-lang"`; `"hi"`, `"a"` and also `"123"` are dropped as
too short (their byte lengths 2, 1 and 3 are below 4). -/
theorem tokenize_example_tokens :
    ((tokenize_messages asciiWordChar asciiLower
        [⟨"u", "Hi there RUST-lang 123 a"⟩] 4).map Token.word
      = ["there", "rust-lang"])
    ∧ (asciiLower "Hi").utf8ByteSize < 4
    ∧ (asciiLower "a").utf8ByteSize < 4
    ∧ (asciiLower "123").utf8ByteSize < 4 :=
  ⟨by rfl, by decide, by decide, by decide⟩

/-- C9: given the frequency mapping and a maximum count `N`, the ranking step
produces (word, count) pairs, all drawn from the mapping, sorted by count
descending and truncated to length `min N (size)`; in particular counts
`a:5, b:9, c:1` with maximum 2 yield `[(b,9),(a,5)]`. -/
theorem rank_sorted_truncated (words : List (String × Nat)) (N : Nat) :
    List.Sorted countGE (rank words N)
    ∧ (rank words N).length = min N words.length
    ∧ (∀ p, p ∈ rank words N → p ∈ words)
    ∧ rank [("a", 5), ("b", 9), ("c", 1)] 2 = [("b", 9), ("a", 5)] := by
  refine ⟨?_, ?_, ?_, by rfl⟩
  · exact List.Pairwise.sublist (List.take_sublist _ _)
      (List.sorted_insertionSort countGE words)
  · simp [rank, List.length_take, List.length_insertionSort]
  · intro p hp
    exact (List.perm_insertionSort countGE words).subset
      ((List.take_sublist _ _).subset hp)

/-- C9 witness: the pair `(b, 9)` returned by the ranking of
`{a:5, b:9, c:1}` with maximum 2 is indeed an entry of the mapping. -/
theorem rank_sorted_truncated_witness :
    ("b", 9) ∈ ([("a", 5), ("b", 9), ("c", 1)] : List (String × Nat)) :=
  (rank_sorted_truncated [("a", 5), ("b", 9), ("c", 1)] 2).2.2.1 ("b", 9) (by decide)

/-- C4: two configurations that differ only in `stop_words` produce the same
filtered token sequence (and the same final pipeline result): the filtering
stage of `main` passes `get_russian_stopwords()` to `filter_stop_words` and
never reads `args.stop_words`. -/
theorem stop_words_config_ignored (wc : Char → Bool) (lower : String → String)
    (ruStem enStem : String → String) (a : Args) (sw1 sw2 : Option (List String))
    (messages : List Message) (input : List Char) :
    pipeline_filtered_tokens wc lower { a with stop_words := sw1 } messages =
      pipeline_filtered_tokens wc lower { a with stop_words := sw2 } messages
    ∧ pipeline_filtered_tokens wc lower a messages =
        filter_stop_words
          (tokenize_messages wc lower (simplify_messages messages) (max a.min_length 4))
          get_russian_stopwords
    ∧ main_model wc lower ruStem enStem { a with stop_words := sw1 } input =
        main_model wc lower ruStem enStem { a with stop_words := sw2 } input :=
  ⟨rfl, rfl, rfl⟩

/-- Replacing the skip-or-keep loop body of `tokenize_messages` by a filter on
the lowercased words: a run is kept exactly when the UTF-8 length of its
lowercased form reaches the minimum. -/
theorem filterMap_length_check (lower : String → String) (n : Nat) (runs : List String) :
    (runs.filterMap fun run =>
      let word := lower run
      if word.utf8ByteSize < n then none else some (Token.mk word)) =
    ((runs.map lower).filter fun word => n ≤ word.utf8ByteSize).map Token.mk := by
  induction runs with
  | nil => rfl
  | cons r rs ih =>
    simp only [List.filterMap_cons, List.map_cons, List.filter_cons]
    by_cases h : (lower r).utf8ByteSize < n
    · have hd : decide (n ≤ (lower r).utf8ByteSize) = false := by
        simp [Nat.not_le.mpr h]
      simp only [if_pos h, hd, Bool.false_eq_true, if_false, ih]
    · have hd : decide (n ≤ (lower r).utf8ByteSize) = true := by
        simp [Nat.le_of_not_lt h]
      simp only [if_neg h, hd, if_true, List.map_cons, ih]

/-- C6: the caller clamps the configured minimum length to `max m 4`
(`src/main.rs` line 70); a matched run is lowercased first and then kept
exactly when the UTF-8 byte length of the lowercased run reaches the minimum
(the comparison is by encoded length, not character count: the two-character
word `"да"` has byte length 4 and passes the minimum 4). -/
theorem tokenize_clamped_byte_length (wc : Char → Bool) (lower : String → String)
    (args : Args) (messages : List Message) :
    (pipeline_filtered_tokens wc lower args messages =
      filter_stop_words
        (tokenize_messages wc lower (simplify_messages messages) (max args.min_length 4))
        get_russian_stopwords)
    ∧ 4 ≤ max args.min_length 4
    ∧ (∀ (n : Nat) (msgs : List SimpleMessage),
        tokenize_messages wc lower msgs n =
          msgs.flatMap fun message =>
            (((wordRuns wc message.text).map lower).filter
              fun word => n ≤ word.utf8ByteSize).map Token.mk)
    ∧ tokenize_messages (fun _ => true) id [⟨"u", "да"⟩] 4 = [⟨"да"⟩]
    ∧ "да".length = 2 ∧ "да".utf8ByteSize = 4 := by
  refine ⟨rfl, le_max_right _ _, ?_, by rfl, by rfl, by rfl⟩
  intro n msgs
  unfold tokenize_messages
  exact congrArg msgs.flatMap (funext fun message => filterMap_length_check lower n _)

/-! ## The text extractor (C5) -/

theorem join_cons_str (s : String) (l : List String) :
    String.join (s :: l) = s ++ String.join l := by
  cases s
  simp only [String.join_eq, List.map_cons, List.flatten_cons]
  rfl

theorem extractStep_eq (result : String) (p : Json) :
    extractStep result p = result ++ specPartText p := by
  cases p with
  | obj o =>
    show (match Json.getField o "text" with
      | some (Json.str t) => result ++ t
      | _ => result) = _
    cases hj : Json.getField o "text" with
    | none => simp [specPartText, hj, String.append_empty]
    | some j => cases j <;> simp [specPartText, hj, String.append_empty]
  | str t => simp [extractStep, specPartText]
  | _ => simp [extractStep, specPartText, String.append_empty]

theorem extract_foldl_eq (parts : List Json) (init : String) :
    parts.foldl extractStep init = init ++ String.join (parts.map specPartText) := by
  induction parts generalizing init with
  | nil =>
    show init = init ++ String.join []
    rw [show String.join [] = "" from rfl, String.append_empty]
  | cons p ps ih =>
    simp only [List.foldl_cons, List.map_cons, join_cons_str]
    rw [ih, extractStep_eq, String.append_assoc]

theorem entities_fallback_eq (ents : List TextEntity) :
    (if !ents.isEmpty then String.join (ents.map TextEntity.text) else "") =
      String.join (ents.map TextEntity.text) := by
  cases ents with
  | nil => rfl
  | cons e es => rfl

/-- C5: `extract_message_text` is decided by the shape of the `text` field: a
plain string is returned as-is; an array is concatenated in order, each part
contributing its plain string value or the string value of its `"text"`
sub-field, and the empty string otherwise; any other shape falls back to
concatenating the `text` of every `text_entities` entry, which is the empty
string when that list is empty.  In particular `"hello"` maps to `"hello"`,
`["a", {"text":"b"}, {"type":"link","text":"c"}]` maps to `"abc"`, the
entities fallback `[{plain,x},{bold,y}]` maps to `"xy"`, and absent text with
no entities maps to `""`. -/
theorem extract_message_text_cases (msg : Message) :
    (∀ s, msg.text = Json.str s → extract_message_text msg = s)
    ∧ (∀ parts, msg.text = Json.arr parts →
        extract_message_text msg = String.join (parts.map specPartText))
    ∧ ((∀ s, msg.text ≠ Json.str s) → (∀ parts, msg.text ≠ Json.arr parts) →
        extract_message_text msg = String.join (msg.text_entities.map TextEntity.text))
    ∧ ((∀ s, msg.text ≠ Json.str s) → (∀ parts, msg.text ≠ Json.arr parts) →
        msg.text_entities = [] → extract_message_text msg = "")
    ∧ extract_message_text (mkTextMsg (Json.str "hello") []) = "hello"
    ∧ extract_message_text (mkTextMsg (Json.arr [Json.str "a",
        Json.obj [("text", Json.str "b")],
        Json.obj [("type", Json.str "link"), ("text", Json.str "c")]]) []) = "abc"
    ∧ extract_message_text (mkTextMsg Json.null [⟨"plain", "x"⟩, ⟨"bold", "y"⟩]) = "xy"
    ∧ extract_message_text (mkTextMsg Json.null []) = "" := by
  have hfall : (∀ s, msg.text ≠ Json.str s) → (∀ parts, msg.text ≠ Json.arr parts) →
      extract_message_text msg = String.join (msg.text_entities.map TextEntity.text) := by
    intro h1 h2
    unfold extract_message_text
    cases htext : msg.text with
    | str s => exact absurd htext (h1 s)
    | arr parts => exact absurd htext (h2 parts)
    | null => exact entities_fallback_eq _
    | bool b => exact entities_fallback_eq _
    | num n => exact entities_fallback_eq _
    | numOther r => exact entities_fallback_eq _
    | obj o => exact entities_fallback_eq _
  refine ⟨?_, ?_, hfall, ?_, by rfl, by rfl, by rfl, by rfl⟩
  · intro s h
    unfold extract_message_text
    rw [h]
  · intro parts h
    unfold extract_message_text
    rw [h]
    exact (extract_foldl_eq parts "").trans (String.empty_append _)
  · intro h1 h2 h3
    rw [hfall h1 h2, h3]
    rfl

/-- C5 witness: the entities fallback applied to a concrete message with a
`null` text shape and two entities. -/
theorem extract_message_text_cases_witness :
    extract_message_text (mkTextMsg Json.null [⟨"plain", "x"⟩, ⟨"bold", "y"⟩]) = "xy" :=
  ((extract_message_text_cases (mkTextMsg Json.null [⟨"plain", "x"⟩, ⟨"bold", "y"⟩])).2.2.1
    (fun _ h => Json.noConfusion h) (fun _ h => Json.noConfusion h)).trans (by rfl)

/-! ## The frequency aggregator (C8) -/

theorem lookupCount_nil (v : String) : lookupCount [] v = 0 := rfl

theorem lookupCount_cons (k : String) (c : Nat) (rest : List (String × Nat))
    (v : String) :
    lookupCount ((k, c) :: rest) v = if v = k then c else lookupCount rest v := by
  by_cases h : v = k
  · subst h; simp [lookupCount, List.find?]
  · simp [lookupCount, List.find?, Ne.symm h, h]

theorem lookupCount_incrWord (m : List (String × Nat)) (w v : String) :
    lookupCount (incrWord m w) v =
      if v = w then lookupCount m w + 1 else lookupCount m v := by
  induction m with
  | nil =>
    by_cases h : v = w <;> simp [incrWord, lookupCount_cons, lookupCount_nil, h]
  | cons p rest ih =>
    obtain ⟨k, c⟩ := p
    by_cases hkw : k = w
    · subst hkw
      by_cases hvk : v = k <;> simp [incrWord, lookupCount_cons, hvk]
    · by_cases hvk : v = k
      · have hvw : ¬ v = w := fun hh => hkw (hvk.symm.trans hh)
        simp [incrWord, hkw, lookupCount_cons, hvk, hvw]
      · simp [incrWord, hkw, lookupCount_cons, hvk, Ne.symm hkw, ih]

theorem lookupCount_foldl_incrWord (ts : List Token) (m : List (String × Nat))
    (v : String) :
    lookupCount (ts.foldl (fun acc t => incrWord acc t.word) m) v =
      lookupCount m v + (ts.map Token.word).count v := by
  induction ts generalizing m with
  | nil => simp
  | cons t ts ih =>
    simp only [List.foldl_cons, List.map_cons, List.count_cons]
    rw [ih, lookupCount_incrWord]
    by_cases h : v = t.word
    · simp [h]; omega
    · simp [h, Ne.symm h]

/-- The count the finished map associates to a word is the word's occurrence
count in the token sequence. -/
theorem lookupCount_count_words (ts : List Token) (v : String) :
    lookupCount (count_words ts) v = (ts.map Token.word).count v := by
  have := lookupCount_foldl_incrWord ts [] v
  simpa [count_words, lookupCount] using this

theorem keys_incrWord (m : List (String × Nat)) (w : String) :
    (incrWord m w).map Prod.fst =
      if w ∈ m.map Prod.fst then m.map Prod.fst else m.map Prod.fst ++ [w] := by
  induction m with
  | nil => simp [incrWord]
  | cons p rest ih =>
    obtain ⟨k, c⟩ := p
    by_cases hkw : k = w
    · subst hkw; simp [incrWord]
    · simp only [incrWord, if_neg hkw, List.map_cons, List.mem_cons]
      rw [ih]
      by_cases hw : w ∈ rest.map Prod.fst
      · simp [hw, Ne.symm hkw]
      · simp [hw, Ne.symm hkw]

theorem nodup_keys_incrWord (m : List (String × Nat)) (w : String)
    (h : (m.map Prod.fst).Nodup) : ((incrWord m w).map Prod.fst).Nodup := by
  rw [keys_incrWord]
  by_cases hw : w ∈ m.map Prod.fst
  · simpa [hw] using h
  · simp only [if_neg hw]
    rw [List.nodup_append]
    refine ⟨h, List.nodup_singleton w, ?_⟩
    intro a ha hb
    rw [List.mem_singleton] at hb
    subst hb
    exact hw ha

theorem nodup_keys_foldl_incrWord (ts : List Token) (m : List (String × Nat))
    (h : (m.map Prod.fst).Nodup) :
    (((ts.foldl (fun acc t => incrWord acc t.word) m)).map Prod.fst).Nodup := by
  induction ts generalizing m with
  | nil => exact h
  | cons t ts ih => exact ih _ (nodup_keys_incrWord m t.word h)

theorem toFinset_keys_foldl_incrWord (ts : List Token) (m : List (String × Nat)) :
    ((ts.foldl (fun acc t => incrWord acc t.word) m).map Prod.fst).toFinset =
      (m.map Prod.fst).toFinset ∪ (ts.map Token.word).toFinset := by
  induction ts generalizing m with
  | nil => simp
  | cons t ts ih =>
    simp only [List.foldl_cons, List.map_cons, List.toFinset_cons]
    rw [ih, keys_incrWord]
    by_cases hw : t.word ∈ m.map Prod.fst
    · simp only [if_pos hw]
      ext a
      simp only [Finset.mem_union, Finset.mem_insert, List.mem_toFinset]
      constructor
      · rintro (hm | hm)
        · left; exact hm
        · right; right; exact hm
      · rintro (hm | rfl | hm)
        · left; exact hm
        · left; exact hw
        · right; exact hm
    · simp only [if_neg hw, List.toFinset_append]
      ext a
      simp only [Finset.mem_union, Finset.mem_insert, List.mem_toFinset,
        List.toFinset_cons, List.toFinset_nil, Finset.mem_singleton,
        List.mem_singleton, insert_emptyc_eq]
      constructor
      · rintro ((hm | rfl) | hm)
        · left; exact hm
        · right; left; rfl
        · right; right; exact hm
      · rintro (hm | rfl | hm)
        · left; left; exact hm
        · left; right; rfl
        · right; exact hm

theorem pos_counts_incrWord (m : List (String × Nat)) (w : String)
    (h : ∀ p ∈ m, 0 < p.2) : ∀ p ∈ incrWord m w, 0 < p.2 := by
  induction m with
  | nil =>
    intro p hp
    rw [show incrWord [] w = [(w, 1)] from rfl, List.mem_singleton] at hp
    subst hp
    exact Nat.one_pos
  | cons q rest ih =>
    obtain ⟨k, c⟩ := q
    have hrest : ∀ p ∈ rest, 0 < p.2 := fun q hq => h q (List.mem_cons_of_mem _ hq)
    intro p hp
    by_cases hkw : k = w
    · rw [show incrWord ((k, c) :: rest) w = if k = w then (k, c + 1) :: rest
          else (k, c) :: incrWord rest w from rfl, if_pos hkw, List.mem_cons] at hp
      rcases hp with rfl | h2
      · exact Nat.succ_pos c
      · exact hrest p h2
    · rw [show incrWord ((k, c) :: rest) w = if k = w then (k, c + 1) :: rest
          else (k, c) :: incrWord rest w from rfl, if_neg hkw, List.mem_cons] at hp
      rcases hp with rfl | h2
      · exact h (k, c) (List.mem_cons_self _ _)
      · exact ih hrest p h2

theorem pos_counts_foldl_incrWord (ts : List Token) (m : List (String × Nat))
    (h : ∀ p ∈ m, 0 < p.2) :
    ∀ p ∈ ts.foldl (fun acc t => incrWord acc t.word) m, 0 < p.2 := by
  induction ts generalizing m with
  | nil => exact h
  | cons t ts ih => exact ih _ (pos_counts_incrWord m t.word h)

theorem length_count_words (ts : List Token) :
    (count_words ts).length = (ts.map Token.word).dedup.length := by
  have hn : ((count_words ts).map Prod.fst).Nodup :=
    nodup_keys_foldl_incrWord ts [] (by simp)
  have hf : ((count_words ts).map Prod.fst).toFinset = (ts.map Token.word).toFinset := by
    have := toFinset_keys_foldl_incrWord ts []
    simpa [count_words] using this
  calc (count_words ts).length
      = ((count_words ts).map Prod.fst).length := (List.length_map _ _).symm
    _ = ((count_words ts).map Prod.fst).toFinset.card :=
        (List.toFinset_card_of_nodup hn).symm
    _ = (ts.map Token.word).toFinset.card := by rw [hf]
    _ = (ts.map Token.word).dedup.length := List.card_toFinset _

/-- C8: `count_words` is order-independent: any permutation of the token
sequence yields the identical word-to-count mapping (the map has no duplicate
keys, and the count of every word is its occurrence count, which permutations
preserve); the map's size is at most the number of tokens, with equality
exactly when all token words are distinct; and every entry's count is
positive. -/
theorem count_words_perm_invariant (l1 l2 : List Token) (h : l1.Perm l2) :
    (∀ w, lookupCount (count_words l1) w = lookupCount (count_words l2) w)
    ∧ ((count_words l1).map Prod.fst).Nodup
    ∧ (count_words l1).length ≤ l1.length
    ∧ ((count_words l1).length = l1.length ↔ (l1.map Token.word).Nodup)
    ∧ (∀ p, p ∈ count_words l1 → 0 < p.2) := by
  refine ⟨?_, nodup_keys_foldl_incrWord l1 [] (by simp), ?_, ?_, ?_⟩
  · intro w
    rw [lookupCount_count_words, lookupCount_count_words]
    exact (h.map Token.word).count_eq w
  · rw [length_count_words]
    calc (l1.map Token.word).dedup.length
        ≤ (l1.map Token.word).length := (List.dedup_sublist _).length_le
      _ = l1.length := List.length_map _ _
  · rw [length_count_words]
    constructor
    · intro hlen
      have hlen' : (l1.map Token.word).dedup.length = (l1.map Token.word).length := by
        rw [hlen, List.length_map]
      have : (l1.map Token.word).dedup = l1.map Token.word :=
        (List.dedup_sublist _).eq_of_length hlen'
      rw [← this]
      exact List.nodup_dedup _
    · intro hnd
      rw [List.dedup_eq_self.mpr hnd, List.length_map]
  · exact pos_counts_foldl_incrWord l1 [] (by simp)

/-- C8 witness: on the concrete permuted token lists `[a, b, a]` and
`[a, a, b]` the resulting count of `"a"` is the same. -/
theorem count_words_perm_invariant_witness :
    lookupCount (count_words [⟨"a"⟩, ⟨"b"⟩, ⟨"a"⟩]) "a" =
      lookupCount (count_words [⟨"a"⟩, ⟨"a"⟩, ⟨"b"⟩]) "a" :=
  (count_words_perm_invariant [⟨"a"⟩, ⟨"b"⟩, ⟨"a"⟩] [⟨"a"⟩, ⟨"a"⟩, ⟨"b"⟩]
    (by decide)).1 "a"

/-! ## Fatal emptiness (C2) and the in-string brace anomaly (C7) -/

/-- C2 (amended): when zero records are decoded over the entire scan the
pipeline fails fatally with the terminal `No valid messages found in the
file` error; when at least one record decodes the pipeline always proceeds
to a result — even when zero decoded messages have extractable text. -/
theorem pipeline_no_records_fatal (wc : Char → Bool) (lower : String → String)
    (ruStem enStem : String → String) (args : Args) (input : List Char) :
    (decodedMessages input = [] →
      main_model wc lower ruStem enStem args input =
        Except.error "No valid messages found in the file")
    ∧ (decodedMessages input ≠ [] → ∃ result,
        main_model wc lower ruStem enStem args input = Except.ok result) := by
  constructor
  · intro h
    unfold main_model read_messages
    rw [h]
    rfl
  · intro h
    cases hd : decodedMessages input with
    | nil => exact absurd hd h
    | cons mfirst mrest =>
      exact ⟨_, by unfold main_model read_messages; rw [hd]; rfl⟩

/-- C2 witness: on the empty input nothing is decoded and the pipeline fails
with the fatal error. -/
theorem pipeline_no_records_fatal_witness :
    main_model asciiWordChar asciiLower id id cfgDefault [] =
      Except.error "No valid messages found in the file" :=
  (pipeline_no_records_fatal asciiWordChar asciiLower id id cfgDefault []).1 (by rfl)

/-- C2 counterexample: a file whose single record decodes but carries no
text: records are recovered, zero decoded messages have extractable text,
yet the pipeline proceeds to an empty result instead of failing fatally. -/
theorem pipeline_empty_text_not_fatal :
    (decodedMessages textlessInput.toList).isEmpty = false
    ∧ (simplify_messages (decodedMessages textlessInput.toList)).isEmpty = true
    ∧ main_model asciiWordChar asciiLower id id cfgDefault textlessInput.toList =
        Except.ok [] :=
  ⟨by rfl, by rfl, by rfl⟩

/-- C7: `braceTextInput` is a single syntactically valid `Message` object
(it decodes as a whole, its `text` string value is `"}"`), yet
`read_messages` recovers no message from it: the scanner's depth counter is
decremented by the `}` inside the string literal, so of the 67 characters
the emitted span stops at index 64 (the in-string `}`), and the truncated
span fails to decode. -/
theorem in_string_brace_defeats_scanner :
    (decodeMessage braceTextInput).isSome = true
    ∧ (decodeMessage braceTextInput).map Message.text = some (Json.str "\x7d")
    ∧ braceTextInput.toList.length = 67
    ∧ readSpans braceTextInput.toList = [(0, 64)]
    ∧ decodeMessage (spanString braceTextInput.toList 0 64) = none
    ∧ read_messages braceTextInput.toList =
        Except.error "No valid messages found in the file" :=
  ⟨by rfl, by rfl, by rfl, by decide, by rfl, by rfl⟩



/-! ## The record scanner (C1) -/

theorem getD_drop_char (chars : List Char) (i j : Nat) :
    (chars.drop i).getD j ' ' = chars.getD (i + j) ' ' := by
  simp [List.getD_eq_getElem?_getD, List.getElem?_drop]

theorem findOpenAux_some (rest : List Char) (i s : Nat)
    (h : findOpenAux rest i = some s) :
    i ≤ s ∧ s - i < rest.length ∧ rest.getD (s - i) ' ' = obrace ∧
      ∀ k, k < s - i → rest.getD k ' ' ≠ obrace := by
  induction rest generalizing i with
  | nil => cases h
  | cons c cs ih =>
    by_cases hc : c = obrace
    · rw [show findOpenAux (c :: cs) i =
        (if c = obrace then some i else findOpenAux cs (i + 1)) from rfl,
        if_pos hc] at h
      obtain rfl : i = s := Option.some.inj h
      exact ⟨le_refl _, by simp, by simpa [Nat.sub_self] using hc,
        fun k hk => absurd hk (by omega)⟩
    · rw [show findOpenAux (c :: cs) i =
        (if c = obrace then some i else findOpenAux cs (i + 1)) from rfl,
        if_neg hc] at h
      obtain ⟨h1, h2, h3, h4⟩ := ih (i + 1) h
      have hsi : s - i = (s - (i + 1)) + 1 := by omega
      refine ⟨by omega, by simp; omega, ?_, ?_⟩
      · rw [hsi, List.getD_cons_succ]
        exact h3
      · intro k hk
        cases k with
        | zero => simpa [List.getD_cons_zero] using hc
        | succ k' =>
          rw [List.getD_cons_succ]
          exact h4 k' (by omega)

theorem findOpenAux_none (rest : List Char) (i : Nat)
    (h : findOpenAux rest i = none) :
    ∀ k, k < rest.length → rest.getD k ' ' ≠ obrace := by
  induction rest generalizing i with
  | nil => intro k hk; exact absurd hk (by simp)
  | cons c cs ih =>
    by_cases hc : c = obrace
    · rw [show findOpenAux (c :: cs) i =
        (if c = obrace then some i else findOpenAux cs (i + 1)) from rfl,
        if_pos hc] at h
      cases h
    · rw [show findOpenAux (c :: cs) i =
        (if c = obrace then some i else findOpenAux cs (i + 1)) from rfl,
        if_neg hc] at h
      intro k hk
      cases k with
      | zero => simpa [List.getD_cons_zero] using hc
      | succ k' =>
        rw [List.getD_cons_succ]
        exact ih (i + 1) h k' (by simpa using hk)

theorem findOpen_some (chars : List Char) (idx s : Nat)
    (h : findOpen chars idx = some s) :
    idx ≤ s ∧ s < chars.length ∧ chars.getD s ' ' = obrace ∧
      ∀ p, idx ≤ p → p < s → chars.getD p ' ' ≠ obrace := by
  obtain ⟨h1, h2, h3, h4⟩ := findOpenAux_some (chars.drop idx) idx s h
  rw [List.length_drop] at h2
  refine ⟨h1, by omega, ?_, ?_⟩
  · rw [getD_drop_char] at h3
    rwa [show idx + (s - idx) = s by omega] at h3
  · intro p hp1 hp2
    have := h4 (p - idx) (by omega)
    rw [getD_drop_char, show idx + (p - idx) = p by omega] at this
    exact this

theorem findOpen_none (chars : List Char) (idx : Nat)
    (h : findOpen chars idx = none) :
    ∀ p, idx ≤ p → p < chars.length → chars.getD p ' ' ≠ obrace := by
  intro p hp1 hp2
  have := findOpenAux_none (chars.drop idx) idx h (p - idx)
    (by rw [List.length_drop]; omega)
  rw [getD_drop_char, show idx + (p - idx) = p by omega] at this
  exact this

theorem braceDelta_obrace : braceDelta obrace = 1 := rfl

theorem braceDelta_cbrace : braceDelta cbrace = -1 := by
  have : ¬ (cbrace = obrace) := by decide
  simp [braceDelta, this]

theorem braceDelta_other (c : Char) (h1 : ¬ c = obrace) (h2 : ¬ c = cbrace) :
    braceDelta c = 0 := by
  simp [braceDelta, h1, h2]

theorem depthFold_nil (d : Int) : depthFold d [] = d := rfl

theorem depthFold_cons (d : Int) (c : Char) (l : List Char) :
    depthFold d (c :: l) = depthFold (d + braceDelta c) l := rfl

theorem closeFromAux_some (rest : List Char) (d pos e : Nat)
    (hd : 1 ≤ d) (h : closeFromAux rest d pos = some e) :
    pos ≤ e ∧ e - pos < rest.length ∧
      depthFold (d : Int) (rest.take (e - pos + 1)) = 0 ∧
      ∀ m, m ≤ e - pos → 1 ≤ depthFold (d : Int) (rest.take m) := by
  induction rest generalizing d pos with
  | nil => cases h
  | cons c cs ih =>
    have hstep : closeFromAux (c :: cs) d pos =
        (if c = obrace then closeFromAux cs (d + 1) (pos + 1)
         else if c = cbrace then
           (if d = 1 then some pos else closeFromAux cs (d - 1) (pos + 1))
         else closeFromAux cs d (pos + 1)) := rfl
    by_cases hc : c = obrace
    · rw [hstep, if_pos hc] at h
      obtain ⟨h1, h2, h3, h4⟩ := ih (d + 1) (pos + 1) (by omega) h
      have hep : e - pos = (e - (pos + 1)) + 1 := by omega
      refine ⟨by omega, by simp; omega, ?_, ?_⟩
      · rw [hep, List.take_succ_cons, depthFold_cons, hc, braceDelta_obrace]
        have : ((d : Int) + 1) = ((d + 1 : Nat) : Int) := by push_cast; ring
        rw [this]
        exact h3
      · intro m hm
        cases m with
        | zero => rw [List.take_zero, depthFold_nil]; exact_mod_cast hd
        | succ m' =>
          rw [List.take_succ_cons, depthFold_cons, hc, braceDelta_obrace]
          have : ((d : Int) + 1) = ((d + 1 : Nat) : Int) := by push_cast; ring
          rw [this]
          exact h4 m' (by omega)
    · by_cases hcc : c = cbrace
      · by_cases hd1 : d = 1
        · rw [hstep, if_neg hc, if_pos hcc, if_pos hd1] at h
          obtain rfl : pos = e := Option.some.inj h
          subst hd1
          refine ⟨le_refl _, by simp, ?_, ?_⟩
          · rw [Nat.sub_self, List.take_succ_cons, List.take_zero,
              depthFold_cons, hcc, braceDelta_cbrace, depthFold_nil]
            norm_num
          · intro m hm
            rw [Nat.sub_self] at hm
            interval_cases m
            rw [List.take_zero, depthFold_nil]
            norm_num
        · rw [hstep, if_neg hc, if_pos hcc, if_neg hd1] at h
          obtain ⟨h1, h2, h3, h4⟩ := ih (d - 1) (pos + 1) (by omega) h
          have hep : e - pos = (e - (pos + 1)) + 1 := by omega
          have hcast : ((d : Int) + -1) = ((d - 1 : Nat) : Int) := by
            omega
          refine ⟨by omega, by simp; omega, ?_, ?_⟩
          · rw [hep, List.take_succ_cons, depthFold_cons, hcc, braceDelta_cbrace,
              hcast]
            exact h3
          · intro m hm
            cases m with
            | zero => rw [List.take_zero, depthFold_nil]; exact_mod_cast hd
            | succ m' =>
              rw [List.take_succ_cons, depthFold_cons, hcc, braceDelta_cbrace,
                hcast]
              exact h4 m' (by omega)
      · rw [hstep, if_neg hc, if_neg hcc] at h
        obtain ⟨h1, h2, h3, h4⟩ := ih d (pos + 1) hd h
        have hep : e - pos = (e - (pos + 1)) + 1 := by omega
        have hz : braceDelta c = 0 := braceDelta_other c hc hcc
        refine ⟨by omega, by simp; omega, ?_, ?_⟩
        · rw [hep, List.take_succ_cons, depthFold_cons, hz, add_zero]
          exact h3
        · intro m hm
          cases m with
          | zero => rw [List.take_zero, depthFold_nil]; exact_mod_cast hd
          | succ m' =>
            rw [List.take_succ_cons, depthFold_cons, hz, add_zero]
            exact h4 m' (by omega)

theorem closeFromAux_none (rest : List Char) (d pos : Nat)
    (hd : 1 ≤ d) (h : closeFromAux rest d pos = none) :
    ∀ k, k < rest.length → (∀ m, m ≤ k → 1 ≤ depthFold (d : Int) (rest.take m)) →
      depthFold (d : Int) (rest.take (k + 1)) ≠ 0 := by
  induction rest generalizing d pos with
  | nil => intro k hk; exact absurd hk (by simp)
  | cons c cs ih =>
    have hstep : closeFromAux (c :: cs) d pos =
        (if c = obrace then closeFromAux cs (d + 1) (pos + 1)
         else if c = cbrace then
           (if d = 1 then some pos else closeFromAux cs (d - 1) (pos + 1))
         else closeFromAux cs d (pos + 1)) := rfl
    intro k hk hpre
    by_cases hc : c = obrace
    · rw [hstep, if_pos hc] at h
      have hcast : ((d : Int) + 1) = ((d + 1 : Nat) : Int) := by push_cast; ring
      cases k with
      | zero =>
        rw [List.take_succ_cons, List.take_zero, depthFold_cons, hc,
          braceDelta_obrace, depthFold_nil]
        omega
      | succ k' =>
        rw [List.take_succ_cons, depthFold_cons, hc, braceDelta_obrace, hcast]
        refine ih (d + 1) (pos + 1) (by omega) h k' (by simpa using hk) ?_
        intro m hm
        have := hpre (m + 1) (by omega)
        rwa [List.take_succ_cons, depthFold_cons, hc, braceDelta_obrace, hcast]
          at this
    · by_cases hcc : c = cbrace
      · by_cases hd1 : d = 1
        · rw [hstep, if_neg hc, if_pos hcc, if_pos hd1] at h
          cases h
        · rw [hstep, if_neg hc, if_pos hcc, if_neg hd1] at h
          have hcast : ((d : Int) + -1) = ((d - 1 : Nat) : Int) := by omega
          cases k with
          | zero =>
            rw [List.take_succ_cons, List.take_zero, depthFold_cons, hcc,
              braceDelta_cbrace, depthFold_nil]
            omega
          | succ k' =>
            rw [List.take_succ_cons, depthFold_cons, hcc, braceDelta_cbrace,
              hcast]
            refine ih (d - 1) (pos + 1) (by omega) h k' (by simpa using hk) ?_
            intro m hm
            have := hpre (m + 1) (by omega)
            rwa [List.take_succ_cons, depthFold_cons, hcc, braceDelta_cbrace,
              hcast] at this
      · rw [hstep, if_neg hc, if_neg hcc] at h
        have hz : braceDelta c = 0 := braceDelta_other c hc hcc
        cases k with
        | zero =>
          rw [List.take_succ_cons, List.take_zero, depthFold_cons, hz, add_zero,
            depthFold_nil]
          omega
        | succ k' =>
          rw [List.take_succ_cons, depthFold_cons, hz, add_zero]
          refine ih d (pos + 1) hd h k' (by simpa using hk) ?_
          intro m hm
          have := hpre (m + 1) (by omega)
          rwa [List.take_succ_cons, depthFold_cons, hz, add_zero] at this

theorem closeFrom_some_spanMatched (chars : List Char) (s e : Nat)
    (hb : chars.getD s ' ' = obrace) (h : closeFrom chars s = some e) :
    SpanMatched chars s e := by
  obtain ⟨h1, h2, h3, h4⟩ := closeFromAux_some (chars.drop (s + 1)) 1 (s + 1) e
    (le_refl 1) h
  rw [List.length_drop] at h2
  refine ⟨by omega, by omega, hb, ?_, ?_⟩
  · unfold sliceDepth
    rw [show e - s = (e - (s + 1)) + 1 by omega]
    exact_mod_cast h3
  · intro j hj1 hj2
    unfold sliceDepth
    exact_mod_cast h4 (j - s) (by omega)

theorem spanMatched_unique (chars : List Char) (s e e' : Nat)
    (h : SpanMatched chars s e) (h' : SpanMatched chars s e') : e = e' := by
  obtain ⟨hse, helen, hb, hz, hp⟩ := h
  obtain ⟨hse', helen', hb', hz', hp'⟩ := h'
  rcases Nat.lt_trichotomy e e' with hlt | heq | hgt
  · have := hp' e (by omega) hlt
    omega
  · exact heq
  · have := hp e' (by omega) hgt
    omega

theorem spanMatched_closeFrom (chars : List Char) (s e : Nat)
    (h : SpanMatched chars s e) : closeFrom chars s = some e := by
  obtain ⟨hse, helen, hb, hz, hp⟩ := h
  cases hcf : closeFrom chars s with
  | none =>
    exfalso
    refine closeFromAux_none (chars.drop (s + 1)) 1 (s + 1) (le_refl 1) hcf
      (e - (s + 1)) (by rw [List.length_drop]; omega) ?_ ?_
    · intro m hm
      have := hp (s + m) (by omega) (by omega)
      unfold sliceDepth at this
      rwa [show s + m - s = m by omega] at this
    · have := hz
      unfold sliceDepth at this
      rwa [show e - s = (e - (s + 1)) + 1 by omega] at this
  | some e2 =>
    have hm2 : SpanMatched chars s e2 := closeFrom_some_spanMatched chars s e2 hb hcf
    rw [spanMatched_unique chars s e e2 ⟨hse, helen, hb, hz, hp⟩ hm2]

theorem scanFuel_step (fuel : Nat) (chars : List Char) (idx : Nat) :
    scanFuel (fuel + 1) chars idx =
      (match findOpen chars idx with
       | none => some []
       | some s =>
         match closeFrom chars s with
         | some e => (scanFuel fuel chars (e + 1)).map (fun l => (s, e) :: l)
         | none => scanFuel fuel chars (s + 1)) := rfl

theorem scanFuel_stable (chars : List Char) :
    ∀ f g idx, chars.length - idx < f → chars.length - idx < g →
      scanFuel f chars idx = scanFuel g chars idx := by
  intro f
  induction f with
  | zero => intro g idx hf; exact absurd hf (by omega)
  | succ f ih =>
    intro g idx hf hg
    cases g with
    | zero => exact absurd hg (by omega)
    | succ g' =>
      cases hfo : findOpen chars idx with
      | none => simp only [scanFuel_step, hfo]
      | some s =>
        obtain ⟨his, hslen, hb, _⟩ := findOpen_some chars idx s hfo
        cases hcf : closeFrom chars s with
        | some e =>
          obtain ⟨hse, helen, _, _, _⟩ := closeFrom_some_spanMatched chars s e hb hcf
          simp only [scanFuel_step, hfo, hcf]
          rw [ih g' (e + 1) (by omega) (by omega)]
        | none =>
          simp only [scanFuel_step, hfo, hcf]
          exact ih g' (s + 1) (by omega) (by omega)

theorem scanFuel_isSome (chars : List Char) :
    ∀ f idx, chars.length - idx < f → (scanFuel f chars idx).isSome = true := by
  intro f
  induction f with
  | zero => intro idx hf; exact absurd hf (by omega)
  | succ f ih =>
    intro idx hf
    cases hfo : findOpen chars idx with
    | none => simp only [scanFuel_step, hfo, Option.isSome_some]
    | some s =>
      obtain ⟨his, hslen, hb, _⟩ := findOpen_some chars idx s hfo
      cases hcf : closeFrom chars s with
      | some e =>
        obtain ⟨hse, helen, _, _, _⟩ := closeFrom_some_spanMatched chars s e hb hcf
        have := ih (e + 1) (by omega)
        simp only [scanFuel_step, hfo, hcf]
        cases hq : scanFuel f chars (e + 1) with
        | none => rw [hq] at this; cases this
        | some l => simp
      | none =>
        simp only [scanFuel_step, hfo, hcf]
        exact ih (s + 1) (by omega)

theorem scanFuel_eq_scanFrom (chars : List Char) (idx : Nat) :
    scanFuel (chars.length + 1) chars idx = some (scanFrom chars idx) := by
  have h := scanFuel_isSome chars (chars.length + 1) idx (by omega)
  unfold scanFrom
  cases hq : scanFuel (chars.length + 1) chars idx with
  | none => rw [hq] at h; cases h
  | some l => rfl

theorem scanFrom_step (chars : List Char) (idx : Nat) :
    scanFrom chars idx =
      (match findOpen chars idx with
       | none => []
       | some s =>
         match closeFrom chars s with
         | some e => (s, e) :: scanFrom chars (e + 1)
         | none => scanFrom chars (s + 1)) := by
  have h0 := scanFuel_eq_scanFrom chars idx
  cases hfo : findOpen chars idx with
  | none =>
    simp only [scanFuel_step, hfo] at h0
    dsimp only
    exact (Option.some.inj h0).symm
  | some s =>
    obtain ⟨his, hslen, hb, _⟩ := findOpen_some chars idx s hfo
    cases hcf : closeFrom chars s with
    | some e =>
      obtain ⟨hse, helen, _, _, _⟩ := closeFrom_some_spanMatched chars s e hb hcf
      simp only [scanFuel_step, hfo, hcf] at h0
      rw [scanFuel_stable chars chars.length (chars.length + 1) (e + 1)
        (by omega) (by omega), scanFuel_eq_scanFrom] at h0
      dsimp only
      rw [hcf]
      exact (Option.some.inj h0).symm
    | none =>
      simp only [scanFuel_step, hfo, hcf] at h0
      rw [scanFuel_stable chars chars.length (chars.length + 1) (s + 1)
        (by omega) (by omega), scanFuel_eq_scanFrom] at h0
      dsimp only
      rw [hcf]
      exact (Option.some.inj h0).symm

theorem scanFuel_sound (chars : List Char) :
    ∀ f idx l, scanFuel f chars idx = some l →
      ∀ s e, (s, e) ∈ l → SpanMatched chars s e ∧ idx ≤ s := by
  intro f
  induction f with
  | zero => intro idx l h; cases h
  | succ f ih =>
    intro idx l h s e hmem
    cases hfo : findOpen chars idx with
    | none =>
      simp only [scanFuel_step, hfo] at h
      obtain rfl : [] = l := Option.some.inj h
      cases hmem
    | some s0 =>
      obtain ⟨his, hslen, hb, _⟩ := findOpen_some chars idx s0 hfo
      cases hcf : closeFrom chars s0 with
      | some e0 =>
        simp only [scanFuel_step, hfo, hcf] at h
        obtain ⟨l', hl', rfl⟩ := Option.map_eq_some'.mp h
        have hsm0 := closeFrom_some_spanMatched chars s0 e0 hb hcf
        have hse0 : s0 < e0 := hsm0.1
        rcases List.mem_cons.mp hmem with heq | htail
        · obtain ⟨rfl, rfl⟩ := Prod.mk.injEq .. ▸ (Prod.ext_iff.mp heq)
          exact ⟨hsm0, his⟩
        · obtain ⟨hm, hge⟩ := ih (e0 + 1) l' hl' s e htail
          exact ⟨hm, by omega⟩
      | none =>
        simp only [scanFuel_step, hfo, hcf] at h
        obtain ⟨hm, hge⟩ := ih (s0 + 1) l h s e hmem
        exact ⟨hm, by omega⟩

theorem scanFuel_chain (chars : List Char) :
    ∀ f idx l, scanFuel f chars idx = some l →
      List.Chain' (fun a b : Nat × Nat => a.2 < b.1) l := by
  intro f
  induction f with
  | zero => intro idx l h; cases h
  | succ f ih =>
    intro idx l h
    cases hfo : findOpen chars idx with
    | none =>
      simp only [scanFuel_step, hfo] at h
      obtain rfl : [] = l := Option.some.inj h
      exact List.chain'_nil
    | some s0 =>
      obtain ⟨his, hslen, hb, _⟩ := findOpen_some chars idx s0 hfo
      cases hcf : closeFrom chars s0 with
      | some e0 =>
        simp only [scanFuel_step, hfo, hcf] at h
        obtain ⟨l', hl', rfl⟩ := Option.map_eq_some'.mp h
        refine List.chain'_cons'.mpr ⟨?_, ih (e0 + 1) l' hl'⟩
        intro b hb'
        have hbmem : b ∈ l' := List.mem_of_mem_head? hb'
        obtain ⟨b1, b2⟩ := b
        obtain ⟨_, hge⟩ := scanFuel_sound chars f (e0 + 1) l' hl' b1 b2 hbmem
        show e0 < b1
        omega
      | none =>
        simp only [scanFuel_step, hfo, hcf] at h
        exact ih (s0 + 1) l h

theorem scanFuel_cover (chars : List Char) :
    ∀ f idx l, scanFuel f chars idx = some l →
      ∀ p e', idx ≤ p → SpanMatched chars p e' →
        ∃ q, q ∈ l ∧ q.1 ≤ p ∧ p ≤ q.2 := by
  intro f
  induction f with
  | zero => intro idx l h; cases h
  | succ f ih =>
    intro idx l h p e' hip hm
    have hpb : chars.getD p ' ' = obrace := hm.2.2.1
    have hplen : p < chars.length := by
      obtain ⟨h1, h2, _⟩ := hm
      omega
    cases hfo : findOpen chars idx with
    | none =>
      exact absurd hpb (findOpen_none chars idx hfo p hip hplen)
    | some s0 =>
      obtain ⟨his, hslen, hb, hmin⟩ := findOpen_some chars idx s0 hfo
      have hs0p : s0 ≤ p := by
        by_contra hcon
        exact hmin p hip (by omega) hpb
      cases hcf : closeFrom chars s0 with
      | some e0 =>
        simp only [scanFuel_step, hfo, hcf] at h
        obtain ⟨l', hl', rfl⟩ := Option.map_eq_some'.mp h
        by_cases hpe : p ≤ e0
        · exact ⟨(s0, e0), List.mem_cons_self _ _, hs0p, hpe⟩
        · obtain ⟨q, hq, hq1, hq2⟩ := ih (e0 + 1) l' hl' p e' (by omega) hm
          exact ⟨q, List.mem_cons_of_mem _ hq, hq1, hq2⟩
      | none =>
        simp only [scanFuel_step, hfo, hcf] at h
        have hps0 : p ≠ s0 := by
          intro hh
          subst hh
          rw [spanMatched_closeFrom chars p e' hm] at hcf
          cases hcf
        exact ih (s0 + 1) l h p e' (by omega) hm

/-- C1: for every input character sequence the scanner of `read_messages`
terminates (fuel `length + 1`, i.e. one unit per loop iteration, always
suffices); every emitted span is a maximal balanced top-level object span
(`SpanMatched`), so an opening brace with no matching closing brace never
yields a span; the spans are emitted in strictly left-to-right disjoint
order; every maximal balanced span is either emitted or lies strictly inside
an emitted span, so every top-level one is recovered; after an unmatched
opening brace the scan resumes exactly one character past that brace; and
the nested region `{A{B}C}` yields exactly one span covering the whole
region. -/
theorem read_messages_scan_correct (chars : List Char) :
    (scanFuel (chars.length + 1) chars 0).isSome = true
    ∧ (∀ s e, (s, e) ∈ readSpans chars → SpanMatched chars s e)
    ∧ List.Chain' (fun a b : Nat × Nat => a.2 < b.1) (readSpans chars)
    ∧ (∀ p e, SpanMatched chars p e →
        (p, e) ∈ readSpans chars ∨ ∃ q ∈ readSpans chars, q.1 < p ∧ p ≤ q.2)
    ∧ (∀ idx s, findOpen chars idx = some s → closeFrom chars s = none →
        scanFrom chars idx = scanFrom chars (s + 1))
    ∧ readSpans "\x7bA\x7bB\x7dC\x7d".toList = [(0, 6)] := by
  have hsp := scanFuel_eq_scanFrom chars 0
  refine ⟨?_, ?_, ?_, ?_, ?_, by decide⟩
  · rw [hsp]; rfl
  · intro s e hm
    exact (scanFuel_sound chars (chars.length + 1) 0 (scanFrom chars 0) hsp
      s e hm).1
  · exact scanFuel_chain chars (chars.length + 1) 0 (scanFrom chars 0) hsp
  · intro p e hm
    obtain ⟨q, hq, h1, h2⟩ := scanFuel_cover chars (chars.length + 1) 0
      (scanFrom chars 0) hsp p e (Nat.zero_le p) hm
    obtain ⟨q1, q2⟩ := q
    rcases Nat.lt_or_ge q1 p with hlt | hge
    · exact Or.inr ⟨(q1, q2), hq, hlt, h2⟩
    · left
      have hq1p : q1 = p := le_antisymm h1 hge
      subst hq1p
      have hsm := (scanFuel_sound chars (chars.length + 1) 0 (scanFrom chars 0)
        hsp q1 q2 hq).1
      have he : e = q2 := spanMatched_unique chars q1 e q2 hm hsm
      subst he
      exact hq
  · intro idx s hfo hcf
    rw [scanFrom_step chars idx]
    simp only [hfo, hcf]

/-- C1 witness: the single span of the nested example, produced by the
scanner, is a maximal balanced span by the soundness part of the theorem. -/
theorem read_messages_scan_correct_witness :
    SpanMatched "\x7bA\x7bB\x7dC\x7d".toList 0 6 :=
  (read_messages_scan_correct "\x7bA\x7bB\x7dC\x7d".toList).2.1 0 6 (by decide)
